import Mathlib

set_option maxRecDepth 8000
set_option maxHeartbeats 1000000

/-! Verification development for the GabbyGums Discord-markdown rendering engine
(`src/utils/discordMarkdownParser.py` and the reduced copy in
`src/events/bulkMessageDelete.py`).

The engine is an ordered cascade of global regex substitutions over one text
buffer.  We embed it over `List Char`.  Every pattern of the source is
translated into an executable matcher that, at a given position, either fails
or returns the number of consumed characters together with a replacement
description (`List Piece`): a sequence of engine-emitted literal characters and
slices of the matched region.  A single generic driver `gsubGo` mirrors
`re.sub`'s left-to-right, non-overlapping scan (lookbehinds inspect the
original buffer, as in Python).  The driver is parametric in the alphabet: it
is run both on plain characters (the real engine) and on provenance-tagged
characters `Char × Bool` (the flag records whether a character was emitted by
a replacement template), which is how the HTML-safety invariant is stated and
proved.  Replacement callbacks that can return `None` in Python
(`italics_repl`, `blockquote_repl`, `linkify_repl`) are modelled as
`Option`-valued; the driver propagates the failure, so totality of the
pipeline states exactly that those fallback branches are unreachable. -/

/-- The `\s` class of the source's patterns, modelled over its ASCII subset
(the engine's markup delimiters and templates are ASCII; Unicode space
characters are treated as ordinary text). -/
def isWs (c : Char) : Bool :=
  c = ' ' || c = '\t' || c = '\n' || c = '\r' || c = '\x0b' || c = '\x0c'

/-- `[a-zA-Z0-9]`. -/
def isAlnum (c : Char) : Bool :=
  ('a' ≤ c && c ≤ 'z') || ('A' ≤ c && c ≤ 'Z') || ('0' ≤ c && c ≤ '9')

/-- The class `[^a-zA-Z0-9\s]` of `symbols_pattern` / `escaped_symbols_pattern`. -/
def isSymb (c : Char) : Bool := !(isAlnum c || isWs c)

/-- The class `[a-zA-Z0-9-]` of the code-block language tag. -/
def isLangChar (c : Char) : Bool := isAlnum c || c = '-'

/-- The class `[0-9a-zA-Z_]` of emoji names. -/
def isWordChar (c : Char) : Bool := isAlnum c || c = '_'

/-- `[0-9]`. -/
def isDigitC (c : Char) : Bool := '0' ≤ c && c ≤ '9'

/-- The class `[^\n\S]` (whitespace other than newline) of `web_link_pattern`. -/
def isWsNotNl (c : Char) : Bool := isWs c && !(c = '\n')

/-- The class `[a-zA-Z0-9!-;=?-~\s]` of `womboji_pattern`: every printable
ASCII character except `<` and `>`, plus whitespace. -/
def isWombClass (c : Char) : Bool :=
  ('!' ≤ c && c ≤ ';') || c = '=' || ('?' ≤ c && c ≤ '~') || isWs c

/-- `hasPfx p s`: `p` is a prefix of `s` (literal text match in a pattern). -/
def hasPfx : List Char → List Char → Bool
  | [], _ => true
  | _ :: _, [] => false
  | p :: ps, c :: cs => p = c && hasPfx ps cs

/-- Length of the maximal prefix run of characters satisfying `p`
(the effect of a greedy character-class star). -/
def runLen (p : Char → Bool) : List Char → Nat
  | [] => 0
  | c :: cs => if p c then runLen p cs + 1 else 0

/-- One element of a replacement description: an engine-emitted literal
character, or a slice (start index, length) of the matched region. -/
inductive Piece where
  | lit : Char → Piece
  | sl : Nat → Nat → Piece

/-- Literal pieces for an engine-emitted template string. -/
def lits (s : String) : List Piece := s.data.map Piece.lit

/-- Build the replacement text from its description: `emit` injects an
engine-emitted character into the alphabet, slices carry characters of the
matched region unchanged. -/
def applyPieces {α : Type} (emit : Char → α) (consumed : List α) : List Piece → List α
  | [] => []
  | Piece.lit c :: ps => emit c :: applyPieces emit consumed ps
  | Piece.sl i n :: ps => ((consumed.drop i).take n) ++ applyPieces emit consumed ps

/-- Generic `re.sub` driver.  `tr` inspects the character before the current
position (Python lookbehinds read the original buffer) and the character view
of the current suffix; on success it returns `(k, ps)` where `k + 1` characters
are consumed and `ps` describes the replacement.  Scanning then resumes after
the consumed region.  `fuel` bounds the number of scan steps; every step
consumes at least one character, so `fuel := length` suffices. -/
def gsubGo {α : Type} (emit : Char → α) (ch : α → Char)
    (tr : Option Char → List Char → Option (Nat × List Piece)) :
    Nat → Option Char → List α → List α
  | 0, _, xs => xs
  | _ + 1, _, [] => []
  | fuel + 1, prev, a :: rest =>
    match tr prev (ch a :: rest.map ch) with
    | none => a :: gsubGo emit ch tr fuel (some (ch a)) rest
    | some (k, ps) =>
        applyPieces emit (a :: rest.take k) ps ++
          gsubGo emit ch tr fuel (some ((ch a :: rest.map ch).getD k (ch a))) (rest.drop k)

/-- `Option`-valued variant of `gsubGo` for patterns whose replacement callback
can return `None` in the source (which would make `re.sub` raise): `tr`
returning `some (k, none)` aborts the whole substitution. -/
def gsubOGo {α : Type} (emit : Char → α) (ch : α → Char)
    (tr : Option Char → List Char → Option (Nat × Option (List Piece))) :
    Nat → Option Char → List α → Option (List α)
  | 0, _, xs => some xs
  | _ + 1, _, [] => some []
  | fuel + 1, prev, a :: rest =>
    match tr prev (ch a :: rest.map ch) with
    | none => (gsubOGo emit ch tr fuel (some (ch a)) rest).map (a :: ·)
    | some (_, none) => none
    | some (k, some ps) =>
        (gsubOGo emit ch tr fuel (some ((ch a :: rest.map ch).getD k (ch a))) (rest.drop k)).map
          (applyPieces emit (a :: rest.take k) ps ++ ·)

/-- One whole substitution pass over a buffer. -/
def gsubRun {α : Type} (emit : Char → α) (ch : α → Char)
    (tr : Option Char → List Char → Option (Nat × List Piece)) (xs : List α) : List α :=
  gsubGo emit ch tr xs.length none xs

/-- One whole `Option`-valued substitution pass over a buffer. -/
def gsubRunO {α : Type} (emit : Char → α) (ch : α → Char)
    (tr : Option Char → List Char → Option (Nat × Option (List Piece)))
    (xs : List α) : Option (List α) :=
  gsubOGo emit ch tr xs.length none xs

theorem gsubGo_eq_none {α : Type} (emit : Char → α) (ch : α → Char)
    (tr : Option Char → List Char → Option (Nat × List Piece))
    (n : Nat) (prev : Option Char) (a : α) (rest : List α)
    (htry : tr prev (ch a :: rest.map ch) = none) :
    gsubGo emit ch tr (n + 1) prev (a :: rest)
      = a :: gsubGo emit ch tr n (some (ch a)) rest := by
  simp [gsubGo, htry]

theorem gsubGo_eq_some {α : Type} (emit : Char → α) (ch : α → Char)
    (tr : Option Char → List Char → Option (Nat × List Piece))
    (n : Nat) (prev : Option Char) (a : α) (rest : List α) (k : Nat) (ps : List Piece)
    (htry : tr prev (ch a :: rest.map ch) = some (k, ps)) :
    gsubGo emit ch tr (n + 1) prev (a :: rest)
      = applyPieces emit (a :: rest.take k) ps ++
          gsubGo emit ch tr n (some ((ch a :: rest.map ch).getD k (ch a))) (rest.drop k) := by
  simp [gsubGo, htry]

theorem gsubOGo_eq_none {α : Type} (emit : Char → α) (ch : α → Char)
    (tr : Option Char → List Char → Option (Nat × Option (List Piece)))
    (n : Nat) (prev : Option Char) (a : α) (rest : List α)
    (htry : tr prev (ch a :: rest.map ch) = none) :
    gsubOGo emit ch tr (n + 1) prev (a :: rest)
      = (gsubOGo emit ch tr n (some (ch a)) rest).map (a :: ·) := by
  simp [gsubOGo, htry]

theorem gsubOGo_eq_fail {α : Type} (emit : Char → α) (ch : α → Char)
    (tr : Option Char → List Char → Option (Nat × Option (List Piece)))
    (n : Nat) (prev : Option Char) (a : α) (rest : List α) (k : Nat)
    (htry : tr prev (ch a :: rest.map ch) = some (k, none)) :
    gsubOGo emit ch tr (n + 1) prev (a :: rest) = none := by
  simp [gsubOGo, htry]

theorem gsubOGo_eq_some {α : Type} (emit : Char → α) (ch : α → Char)
    (tr : Option Char → List Char → Option (Nat × Option (List Piece)))
    (n : Nat) (prev : Option Char) (a : α) (rest : List α) (k : Nat) (ps : List Piece)
    (htry : tr prev (ch a :: rest.map ch) = some (k, some ps)) :
    gsubOGo emit ch tr (n + 1) prev (a :: rest)
      = (gsubOGo emit ch tr n (some ((ch a :: rest.map ch).getD k (ch a))) (rest.drop k)).map
          (applyPieces emit (a :: rest.take k) ps ++ ·) := by
  simp [gsubOGo, htry]

theorem applyPieces_map {α : Type} (emit : Char → α) (ch : α → Char)
    (hlc : ∀ c, ch (emit c) = c) (consumed : List α) :
    ∀ ps, (applyPieces emit consumed ps).map ch = applyPieces id (consumed.map ch) ps := by
  intro ps
  induction ps with
  | nil => rfl
  | cons p ps ih =>
      cases p with
      | lit c => simp [applyPieces, hlc, ih]
      | sl i n => simp [applyPieces, ih, List.map_take, List.map_drop]

theorem applyPieces_mem {α : Type} (emit : Char → α) (consumed : List α) :
    ∀ ps a, a ∈ applyPieces emit consumed ps → (∃ c, a = emit c) ∨ a ∈ consumed := by
  intro ps
  induction ps with
  | nil => intro a h; simp [applyPieces] at h
  | cons p ps ih =>
      intro a h
      cases p with
      | lit c =>
          simp only [applyPieces, List.mem_cons] at h
          rcases h with h | h
          · exact Or.inl ⟨c, h⟩
          · exact ih a h
      | sl i n =>
          simp only [applyPieces, List.mem_append] at h
          rcases h with h | h
          · exact Or.inr (List.drop_subset i consumed (List.take_subset n _ h))
          · exact ih a h

theorem applyPieces_all_lit {α : Type} (emit : Char → α) (consumed : List α) :
    ∀ l : List Char, applyPieces emit consumed (l.map Piece.lit) = l.map emit := by
  intro l
  induction l with
  | nil => rfl
  | cons c l ih => simp [applyPieces, ih]

theorem gsubGo_map {α : Type} (emit : Char → α) (ch : α → Char)
    (hlc : ∀ c, ch (emit c) = c)
    (tr : Option Char → List Char → Option (Nat × List Piece)) :
    ∀ fuel prev (xs : List α),
      (gsubGo emit ch tr fuel prev xs).map ch = gsubGo id id tr fuel prev (xs.map ch) := by
  intro fuel
  induction fuel with
  | zero => intro prev xs; simp [gsubGo]
  | succ n ih =>
      intro prev xs
      cases xs with
      | nil => simp [gsubGo]
      | cons a rest =>
          rw [List.map_cons]
          cases htry : tr prev (ch a :: rest.map ch) with
          | none =>
              have htry' : tr prev (id (ch a) :: (rest.map ch).map id) = none := by
                simpa using htry
              rw [gsubGo_eq_none emit ch tr n prev a rest htry,
                gsubGo_eq_none id id tr n prev (ch a) (rest.map ch) htry']
              simp [ih]
          | some kr =>
              obtain ⟨k, ps⟩ := kr
              have htry' : tr prev (id (ch a) :: (rest.map ch).map id) = some (k, ps) := by
                simpa using htry
              rw [gsubGo_eq_some emit ch tr n prev a rest k ps htry,
                gsubGo_eq_some id id tr n prev (ch a) (rest.map ch) k ps htry']
              simp [ih, applyPieces_map emit ch hlc, List.map_take, List.map_drop]

theorem gsubGo_mem {α : Type} (emit : Char → α) (ch : α → Char)
    (tr : Option Char → List Char → Option (Nat × List Piece)) :
    ∀ fuel prev (xs : List α) a, a ∈ gsubGo emit ch tr fuel prev xs →
      (∃ c, a = emit c) ∨ a ∈ xs := by
  intro fuel
  induction fuel with
  | zero => intro prev xs a h; exact Or.inr (by simpa [gsubGo] using h)
  | succ n ih =>
      intro prev xs a h
      cases xs with
      | nil => simp [gsubGo] at h
      | cons b rest =>
          cases htry : tr prev (ch b :: rest.map ch) with
          | none =>
              rw [gsubGo_eq_none emit ch tr n prev b rest htry] at h
              simp only [List.mem_cons] at h
              rcases h with h | h
              · exact Or.inr (by simp [h])
              · rcases ih _ _ _ h with h' | h'
                · exact Or.inl h'
                · exact Or.inr (List.mem_cons_of_mem b h')
          | some kr =>
              obtain ⟨k, ps⟩ := kr
              rw [gsubGo_eq_some emit ch tr n prev b rest k ps htry] at h
              simp only [List.mem_append] at h
              rcases h with h | h
              · rcases applyPieces_mem emit _ _ _ h with h' | h'
                · exact Or.inl h'
                · simp only [List.mem_cons] at h'
                  rcases h' with h' | h'
                  · exact Or.inr (by simp [h'])
                  · exact Or.inr (List.mem_cons_of_mem b (List.take_subset k rest h'))
              · rcases ih _ _ _ h with h' | h'
                · exact Or.inl h'
                · exact Or.inr (List.mem_cons_of_mem b (List.drop_subset k rest h'))

theorem gsubOGo_map {α : Type} (emit : Char → α) (ch : α → Char)
    (hlc : ∀ c, ch (emit c) = c)
    (tr : Option Char → List Char → Option (Nat × Option (List Piece))) :
    ∀ fuel prev (xs : List α),
      (gsubOGo emit ch tr fuel prev xs).map (List.map ch)
        = gsubOGo id id tr fuel prev (xs.map ch) := by
  intro fuel
  induction fuel with
  | zero => intro prev xs; simp [gsubOGo]
  | succ n ih =>
      intro prev xs
      cases xs with
      | nil => simp [gsubOGo]
      | cons a rest =>
          rw [List.map_cons]
          cases htry : tr prev (ch a :: rest.map ch) with
          | none =>
              have htry' : tr prev (id (ch a) :: (rest.map ch).map id) = none := by
                simpa using htry
              rw [gsubOGo_eq_none emit ch tr n prev a rest htry,
                gsubOGo_eq_none id id tr n prev (ch a) (rest.map ch) htry']
              simp only [id_eq]
              rw [← ih]
              cases gsubOGo emit ch tr n (some (ch a)) rest <;> simp
          | some kr =>
              obtain ⟨k, ps⟩ := kr
              cases ps with
              | none =>
                  have htry' : tr prev (id (ch a) :: (rest.map ch).map id) = some (k, none) := by
                    simpa using htry
                  rw [gsubOGo_eq_fail emit ch tr n prev a rest k htry,
                    gsubOGo_eq_fail id id tr n prev (ch a) (rest.map ch) k htry']
                  rfl
              | some ps =>
                  have htry' : tr prev (id (ch a) :: (rest.map ch).map id)
                      = some (k, some ps) := by
                    simpa using htry
                  rw [gsubOGo_eq_some emit ch tr n prev a rest k ps htry,
                    gsubOGo_eq_some id id tr n prev (ch a) (rest.map ch) k ps htry']
                  rw [← List.map_drop, ← ih]
                  simp only [id_eq, List.map_id]
                  cases gsubOGo emit ch tr n (some ((ch a :: rest.map ch).getD k (ch a)))
                      (rest.drop k) with
                  | none => rfl
                  | some ys =>
                      simp [applyPieces_map emit ch hlc, List.map_take]

theorem gsubOGo_mem {α : Type} (emit : Char → α) (ch : α → Char)
    (tr : Option Char → List Char → Option (Nat × Option (List Piece))) :
    ∀ fuel prev (xs ys : List α), gsubOGo emit ch tr fuel prev xs = some ys →
      ∀ a, a ∈ ys → (∃ c, a = emit c) ∨ a ∈ xs := by
  intro fuel
  induction fuel with
  | zero =>
      intro prev xs ys hys a ha
      simp only [gsubOGo, Option.some_inj] at hys
      exact Or.inr (hys ▸ ha)
  | succ n ih =>
      intro prev xs ys hys a ha
      cases xs with
      | nil =>
          simp only [gsubOGo, Option.some_inj] at hys
          subst hys; simp at ha
      | cons b rest =>
          cases htry : tr prev (ch b :: rest.map ch) with
          | none =>
              rw [gsubOGo_eq_none emit ch tr n prev b rest htry] at hys
              cases hrec : gsubOGo emit ch tr n (some (ch b)) rest with
              | none => rw [hrec] at hys; simp at hys
              | some zs =>
                  rw [hrec] at hys
                  simp only [Option.map] at hys
                  have hys' : b :: zs = ys := by simpa using hys
                  subst hys'
                  simp only [List.mem_cons] at ha
                  rcases ha with ha | ha
                  · exact Or.inr (by simp [ha])
                  · rcases ih _ _ _ hrec a ha with h' | h'
                    · exact Or.inl h'
                    · exact Or.inr (List.mem_cons_of_mem b h')
          | some kr =>
              obtain ⟨k, ps⟩ := kr
              cases ps with
              | none =>
                  rw [gsubOGo_eq_fail emit ch tr n prev b rest k htry] at hys
                  simp at hys
              | some ps =>
                  rw [gsubOGo_eq_some emit ch tr n prev b rest k ps htry] at hys
                  cases hrec : gsubOGo emit ch tr n
                      (some ((ch b :: rest.map ch).getD k (ch b))) (rest.drop k) with
                  | none => rw [hrec] at hys; simp at hys
                  | some zs =>
                      rw [hrec] at hys
                      have hys' : applyPieces emit (b :: rest.take k) ps ++ zs = ys := by
                        simpa using hys
                      subst hys'
                      simp only [List.mem_append] at ha
                      rcases ha with ha | ha
                      · rcases applyPieces_mem emit _ _ _ ha with h' | h'
                        · exact Or.inl h'
                        · simp only [List.mem_cons] at h'
                          rcases h' with h' | h'
                          · exact Or.inr (by simp [h'])
                          · exact Or.inr (List.mem_cons_of_mem b (List.take_subset k rest h'))
                      · rcases ih _ _ _ hrec a ha with h' | h'
                        · exact Or.inl h'
                        · exact Or.inr (List.mem_cons_of_mem b (List.drop_subset k rest h'))

theorem gsubOGo_total {α : Type} (emit : Char → α) (ch : α → Char)
    (tr : Option Char → List Char → Option (Nat × Option (List Piece)))
    (h : ∀ prev s k r, tr prev s = some (k, r) → r.isSome) :
    ∀ fuel prev (xs : List α), (gsubOGo emit ch tr fuel prev xs).isSome := by
  intro fuel
  induction fuel with
  | zero => intro prev xs; simp [gsubOGo]
  | succ n ih =>
      intro prev xs
      cases xs with
      | nil => simp [gsubOGo]
      | cons a rest =>
          cases htry : tr prev (ch a :: rest.map ch) with
          | none =>
              rw [gsubOGo_eq_none emit ch tr n prev a rest htry]
              have hih := ih (some (ch a)) rest
              cases hx : gsubOGo emit ch tr n (some (ch a)) rest with
              | none => rw [hx] at hih; simp at hih
              | some zs => simp [hx]
          | some kr =>
              obtain ⟨k, ps⟩ := kr
              cases ps with
              | none => exact absurd (h _ _ _ _ htry) (by simp)
              | some ps =>
                  rw [gsubOGo_eq_some emit ch tr n prev a rest k ps htry]
                  have hih := ih (some ((ch a :: rest.map ch).getD k (ch a))) (rest.drop k)
                  cases hx : gsubOGo emit ch tr n (some ((ch a :: rest.map ch).getD k (ch a)))
                      (rest.drop k) with
                  | none => rw [hx] at hih; simp at hih
                  | some zs => simp [hx]

theorem gsubRun_map {α : Type} (emit : Char → α) (ch : α → Char)
    (hlc : ∀ c, ch (emit c) = c)
    (tr : Option Char → List Char → Option (Nat × List Piece)) (xs : List α) :
    (gsubRun emit ch tr xs).map ch = gsubRun id id tr (xs.map ch) := by
  unfold gsubRun
  rw [gsubGo_map emit ch hlc tr, List.length_map]

theorem gsubRunO_map {α : Type} (emit : Char → α) (ch : α → Char)
    (hlc : ∀ c, ch (emit c) = c)
    (tr : Option Char → List Char → Option (Nat × Option (List Piece))) (xs : List α) :
    (gsubRunO emit ch tr xs).map (List.map ch) = gsubRunO id id tr (xs.map ch) := by
  unfold gsubRunO
  rw [gsubOGo_map emit ch hlc tr, List.length_map]

theorem gsubRun_mem {α : Type} (emit : Char → α) (ch : α → Char)
    (tr : Option Char → List Char → Option (Nat × List Piece)) (xs : List α) :
    ∀ a, a ∈ gsubRun emit ch tr xs → (∃ c, a = emit c) ∨ a ∈ xs := by
  intro a h
  exact gsubGo_mem emit ch tr xs.length none xs a h

theorem gsubRunO_mem {α : Type} (emit : Char → α) (ch : α → Char)
    (tr : Option Char → List Char → Option (Nat × Option (List Piece)))
    (xs ys : List α) (hys : gsubRunO emit ch tr xs = some ys) :
    ∀ a, a ∈ ys → (∃ c, a = emit c) ∨ a ∈ xs := by
  exact gsubOGo_mem emit ch tr xs.length none xs ys hys

theorem gsubRunO_total {α : Type} (emit : Char → α) (ch : α → Char)
    (tr : Option Char → List Char → Option (Nat × Option (List Piece)))
    (h : ∀ prev s k r, tr prev s = some (k, r) → r.isSome) (xs : List α) :
    (gsubRunO emit ch tr xs).isSome :=
  gsubOGo_total emit ch tr h xs.length none xs

/-! ## The patterns of `DiscordMarkdown`, as executable matchers

Each matcher mirrors one compiled pattern of the source, including its
backtracking behaviour (lazy/greedy quantifiers, lookbehind `(?<!\\)`,
lookaheads, alternation order).  A matcher returns `(k, pieces)`: the match
consumes `k + 1` characters and is replaced by `pieces` (slice indices count
from the start of the match). -/

/-- The backtick character (0x60). -/
def tickC : Char := '\x60'

/-- `jinja2.escape` (markupsafe): replaces the five HTML-significant
characters by entities; all other characters pass through. -/
def escTbl (c : Char) : Option String :=
  if c = '&' then some "&amp;"
  else if c = '<' then some "&lt;"
  else if c = '>' then some "&gt;"
  else if c = '\'' then some "&#39;"
  else if c = '"' then some "&#34;"
  else none

def tryEscapeHtml (_ : Option Char) (s : List Char) : Option (Nat × List Piece) :=
  match s with
  | c :: _ => (escTbl c).map (fun e => (0, lits e))
  | [] => none

/-- `symbols_pattern = ([^a-zA-Z0-9\s])` with replacement `\` + content
(`escape_symbols_repl`). -/
def tryEscapeSymbols (_ : Option Char) (s : List Char) : Option (Nat × List Piece) :=
  match s with
  | c :: _ => if isSymb c then some (0, [Piece.lit '\\', Piece.sl 0 1]) else none
  | [] => none

/-- `escaped_symbols_pattern = \\([^a-zA-Z0-9\s])` with replacement = content
(`remove_escaped_symbol_repl`). -/
def tryRemoveEscaped (_ : Option Char) (s : List Char) : Option (Nat × List Piece) :=
  match s with
  | c :: c1 :: _ => if c = '\\' ∧ isSymb c1 then some (1, [Piece.sl 1 1]) else none
  | _ => none

/-- The effect of `escape_symbols` on captured content, as replacement pieces:
every symbol character gets a backslash (an engine-emitted literal) prefixed. -/
def escPieces (start : Nat) : List Char → List Piece
  | [] => []
  | c :: cs =>
      (if isSymb c then [Piece.lit '\\', Piece.sl start 1] else [Piece.sl start 1])
        ++ escPieces (start + 1) cs

/-- First index `j` of `u` at which three consecutive backticks start. -/
def cbFind : List Char → Option Nat
  | [] => none
  | c :: cs => if hasPfx "```".data (c :: cs) then some 0 else (cbFind cs).map (· + 1)

/-- The lazy body search of `codeblock_pattern` after the delimiters/newlines:
`(?P<content>[\s\S]+?)\n*(?P<etag>```)`.  The body is the shortest nonempty
prefix followed (after greedily consumed newlines) by the first closing
triple backtick, which therefore sits at the first index `j ≥ 1` of `u`
carrying three backticks; the body ends before the newline run preceding it.
Returns `(body length, j)`. -/
def cbContent (u : List Char) : Option (Nat × Nat) :=
  match u with
  | [] => none
  | _ :: cs =>
      (cbFind cs).map (fun j0 =>
        let j := j0 + 1
        let back := runLen (fun c => c = '\n') ((u.take j).reverse)
        (max 1 (j - back), j))

def cbTryAt (t : List Char) (skip : Nat) : Option (Nat × Nat × Nat) :=
  (cbContent (t.drop skip)).map (fun p => (skip, p.1, p.2))

/-- Backtracking over how many of the newlines after the delimiter/language
tag are consumed before the body: greedy, so larger skips are tried first,
down to `lo`. -/
def cbDescend (t : List Char) (lo : Nat) : Nat → Option (Nat × Nat × Nat)
  | 0 => cbTryAt t lo
  | n + 1 => (cbTryAt t (lo + n + 1)).orElse (fun _ => cbDescend t lo n)

/-- `codeblock_pattern =
    (?P<stag>```)(?:(?P<lang>[a-zA-Z0-9-]+?)\n+)?\n*(?P<content>[\s\S]+?)\n*(?P<etag>```)`
with `codeblock_repl`: a `div` whose class carries the language tag when one
was captured, body symbol-protected by `escape_symbols`. -/
def tryCodeblock (_ : Option Char) (s : List Char) : Option (Nat × List Piece) :=
  if hasPfx "```".data s then
    let t := s.drop 3
    let r := runLen isLangChar t
    let langRes :=
      if 1 ≤ r ∧ (t.drop r).head? = some '\n' then
        let nl := runLen (fun c => c = '\n') (t.drop r)
        (cbDescend t (r + 1) (nl - 1)).map (fun p => (true, p))
      else none
    let res :=
      match langRes with
      | some p => some p
      | none =>
          let nl0 := runLen (fun c => c = '\n') t
          (cbDescend t 0 nl0).map (fun p => (false, p))
    match res with
    | some (hasLang, skip, e, j) =>
        let content := (t.drop skip).take e
        let sTag :=
          if hasLang then
            lits "<div class=\"pre pre--multiline language-" ++ [Piece.sl 3 r] ++ lits "\">"
          else lits "<div class=\"pre pre--multiline nohighlight\">"
        some (3 + skip + j + 2, sTag ++ escPieces (3 + skip) content ++ lits "</div>")
    | none => none
  else none

/-- `inlinecodeblock_pattern = (?<!\\)(`)(?P<content>[^`]*?[^`])(\1)(?!`)` with
`inline_codeblock_repl`: the content (at least one non-backtick character, up
to the next backtick, whose successor must not be another backtick) is
symbol-protected and wrapped in the inline-code span. -/
def tryInline (prev : Option Char) (s : List Char) : Option (Nat × List Piece) :=
  match s with
  | c :: cs =>
      if c = tickC ∧ ¬ prev = some '\\' then
        let n := runLen (fun x => !(x = tickC)) cs
        if 1 ≤ n ∧ (cs.drop n).head? = some tickC ∧ ¬ (cs.drop (n + 1)).head? = some tickC then
          some (n + 1,
            lits "<span class=\"pre pre--inline\">" ++ escPieces 1 (cs.take n)
              ++ lits "</span>")
        else none
      else none
  | [] => none

/-- Lookahead `(?!x)` after a closing delimiter. -/
def laOk : Option Char → List Char → Bool
  | none, _ => true
  | some _, [] => true
  | some f, c :: _ => !(c = f)

/-- Lazy search for the closing two-character delimiter of a
`(?<!\\)dd(?P<content>.+?)(?<!\\)dd(?!x)` pattern: content (`.` never matches
a newline) grows one character at a time until a closing pair whose preceding
character is not a backslash (and which passes the lookahead) is found. -/
def pairClose (d : Char) (la : Option Char) : Char → List Char → Option Nat
  | prevC, c :: c1 :: cs =>
      if c = d ∧ c1 = d ∧ ¬ prevC = '\\' ∧ laOk la cs then some 0
      else if c = '\n' then none
      else (pairClose d la c (c1 :: cs)).map (· + 1)
  | _, _ => none

def matchPair (d : Char) (la : Option Char) (prev : Option Char) (s : List Char) :
    Option (Nat × Nat) :=
  match s with
  | c :: c1 :: c2 :: cs =>
      if ¬ prev = some '\\' ∧ c = d ∧ c1 = d ∧ ¬ c2 = '\n' then
        (pairClose d la c2 cs).map (fun n => (n + 1, n + 4))
      else none
  | _ => none

def tryPair (d : Char) (la : Option Char) (sTag eTag : String)
    (prev : Option Char) (s : List Char) : Option (Nat × List Piece) :=
  (matchPair d la prev s).map (fun p => (p.2, lits sTag ++ [Piece.sl 2 p.1] ++ lits eTag))

/-- `spoiler_pattern = (?<!\\)\|\|(?P<content>.+?)(?<!\\)\|\|`. -/
def trySpoiler : Option Char → List Char → Option (Nat × List Piece) :=
  tryPair '|' none "<span class=\"spoiler\">" "</span>"

/-- `strikethrough_pattern = (?<!\\)~~(?P<content>.+?)(?<!\\)~~(?!_)`. -/
def tryStrike : Option Char → List Char → Option (Nat × List Piece) :=
  tryPair '~' (some '_') "<s>" "</s>"

/-- `bold_pattern = (?<!\\)\*\*(?P<content>.+?)(?<!\\)\*\*`. -/
def tryBold : Option Char → List Char → Option (Nat × List Piece) :=
  tryPair '*' none "<strong>" "</strong>"

/-- `underline_pattern = (?<!\\)__(?P<content>.+?)(?<!\\)__`. -/
def tryUnderline : Option Char → List Char → Option (Nat × List Piece) :=
  tryPair '_' none "<u>" "</u>"

/-- Lazy search for the single-character closing delimiter of
`(?<!\\)d(?P<content>.+?)(?<!\\)d`. -/
def singleClose (d : Char) : Char → List Char → Option Nat
  | prevC, c :: cs =>
      if c = d ∧ ¬ prevC = '\\' then some 0
      else if c = '\n' then none
      else (singleClose d c cs).map (· + 1)
  | _, [] => none

/-- Match of one `(?<!\\)d(?P<content>.+?)(?<!\\)d` form; returns
(content length, k). -/
def matchSingle (d : Char) (prev : Option Char) (s : List Char) : Option (Nat × Nat) :=
  match s with
  | c :: c1 :: cs =>
      if ¬ prev = some '\\' ∧ c = d ∧ ¬ c1 = '\n' then
        (singleClose d c1 cs).map (fun n => (n + 1, n + 2))
      else none
  | _ => none

/-- Match object of `italics_pattern`, the one-pass alternation
`(?:(?<!\\)\*(?P<s_content>.+?)(?<!\\)\*)|(?:(?<!\\)_(?P<u_content>.+?)(?<!\\)_)`:
exactly one of the two content groups is set by a successful match. -/
structure ItM where
  s_content : Option (Nat × Nat)
  u_content : Option (Nat × Nat)

def matchItalics (prev : Option Char) (s : List Char) : Option (Nat × ItM) :=
  match matchSingle '*' prev s with
  | some p => some (p.2, ⟨some (1, p.1), none⟩)
  | none =>
      match matchSingle '_' prev s with
      | some p => some (p.2, ⟨none, some (1, p.1)⟩)
      | none => none

/-- `italics_repl` of the source, including its `None` fallback branch
(reached only if neither content group matched). -/
def italics_repl (m : ItM) : Option (List Piece) :=
  match m.s_content with
  | some g => some (lits "<em>" ++ [Piece.sl g.1 g.2] ++ lits "</em>")
  | none =>
      match m.u_content with
      | some g => some (lits "<em>" ++ [Piece.sl g.1 g.2] ++ lits "</em>")
      | none => none

def tryItalics (prev : Option Char) (s : List Char) :
    Option (Nat × Option (List Piece)) :=
  (matchItalics prev s).map (fun p => (p.1, italics_repl p.2))

/-- One of the bulk engine's two sequential italics passes
(`italics_pattern1` / `italics_pattern2`), whose replacement is the plain
template `<em>\g<content></em>`. -/
def trySingleEm (d : Char) (prev : Option Char) (s : List Char) :
    Option (Nat × List Piece) :=
  (matchSingle d prev s).map (fun p => (p.2, lits "<em>" ++ [Piece.sl 1 p.1] ++ lits "</em>"))

/-- Match object of `blockQuote_pattern`: group 1 is the `>>>` whole-rest
capture, group 2 the single-line capture (including its trailing newlines). -/
structure BqM where
  g1 : Option (Nat × List Char)
  g2 : Option (Nat × List Char)

/-- `re.MULTILINE` `^`: start of the buffer or just after a newline. -/
def atLineStart : Option Char → Bool
  | none => true
  | some c => c = '\n'

/-- `blockQuote_pattern = ^(?: *M3([\s\S]*))|^(?: *M1([^\n]*\n*))` (multiline),
where the marker strings are `&gt;&gt;&gt; ` / `&gt; ` in the escaped-buffer
engine and `>>> ` / `> ` in the bulk engine. -/
def matchBlockquote (m3 m1 : List Char) (prev : Option Char) (s : List Char) :
    Option (Nat × BqM) :=
  if atLineStart prev then
    let sp := runLen (fun c => c = ' ') s
    let t := s.drop sp
    if hasPfx m3 t then
      let g1 := t.drop m3.length
      some (sp + m3.length + g1.length - 1, ⟨some (sp + m3.length, g1), none⟩)
    else if hasPfx m1 t then
      let u := t.drop m1.length
      let cl := runLen (fun c => !(c = '\n')) u
      let nl := runLen (fun c => c = '\n') (u.drop cl)
      some (sp + m1.length + cl + nl - 1, ⟨none, some (sp + m1.length, u.take (cl + nl))⟩)
    else none
  else none

/-- Pieces of a captured group with all newline characters removed
(`m.group(2).replace('\n', '')`). -/
def stripNlPieces (start : Nat) : List Char → List Piece
  | [] => []
  | c :: cs => (if c = '\n' then [] else [Piece.sl start 1]) ++ stripNlPieces (start + 1) cs

/-- `blockquote_repl` of the source, including its silent fallback branch
(returns `None` when neither group matched). -/
def blockquote_repl (m : BqM) : Option (List Piece) :=
  match m.g1 with
  | some g =>
      some (lits "<div class=\"quote\">" ++ [Piece.sl g.1 g.2.length] ++ lits "</div>")
  | none =>
      match m.g2 with
      | some g => some (lits "<div class=\"quote\">" ++ stripNlPieces g.1 g.2 ++ lits "</div>")
      | none => none

def tryBlockquote (m3 m1 : List Char) (prev : Option Char) (s : List Char) :
    Option (Nat × Option (List Piece)) :=
  (matchBlockquote m3 m1 prev s).map (fun p => (p.1, blockquote_repl p.2))

/-- `http[s]?:\/\/` — returns the scheme length (7 or 8). -/
def parseScheme (t : List Char) : Option Nat :=
  if hasPfx "http".data t then
    if (t.drop 4).head? = some 's' ∧ hasPfx "://".data (t.drop 5) then some 8
    else if hasPfx "://".data (t.drop 4) then some 7
    else none
  else none

/-- Lazy tail of `suppresed_embed_link_pattern = &lt;(?P<content>http[s]?:\/\/\S+?)&gt;`:
extend the URL one non-whitespace character at a time until `&gt;` starts. -/
def arrScanGo : List Char → Option Nat
  | [] => none
  | c :: cs =>
      if hasPfx "&gt;".data (c :: cs) then some 0
      else if isWs c then none
      else (arrScanGo cs).map (· + 1)

/-- The suppressed-embed-link unwrap (`remove_suppressed_embed_arrows`):
replacement is just the captured URL. -/
def tryArrows (_ : Option Char) (s : List Char) : Option (Nat × List Piece) :=
  if hasPfx "&lt;".data s then
    let t := s.drop 4
    match parseScheme t with
    | some sc =>
        match t.drop sc with
        | c :: cs =>
            if ¬ isWs c then
              (arrScanGo cs).map (fun ex => (4 + sc + 1 + ex + 3, [Piece.sl 4 (sc + 1 + ex)]))
            else none
        | [] => none
    | none => none
  else none

/-- Lazy tail of the labelled-link URL: `[\S]+?[^\n\S]*?\)`.  At each point
first check whether the (lazily grown) non-newline-whitespace run is followed
by `)`; otherwise the URL extends by one non-whitespace character.  Returns
(extra URL characters, characters after the URL up to and including `)`). -/
def lkScanGo : List Char → Option (Nat × Nat)
  | [] => none
  | c :: cs =>
      let w := runLen isWsNotNl (c :: cs)
      if ((c :: cs).drop w).head? = some ')' then some (0, w + 1)
      else if isWs c then none
      else (lkScanGo cs).map (fun p => (p.1 + 1, p.2))

/-- After `](`: `[^\n\S]*?(http[s]?:\/\/[\S]+?)[^\n\S]*?\)`.  Returns
(leading whitespace, URL length, length after URL through `)`). -/
def lkAfterLabel (rr : List Char) : Option (Nat × Nat × Nat) :=
  let w1 := runLen isWsNotNl rr
  match parseScheme (rr.drop w1) with
  | some sc =>
      match rr.drop (w1 + sc) with
      | c :: cs =>
          if ¬ isWs c then (lkScanGo cs).map (fun p => (w1, sc + 1 + p.1, p.2))
          else none
      | [] => none
  | none => none

/-- Greedy backtracking of the label `(.+)`: candidate label lengths are
tried from the longest downwards; a candidate must be followed by `](` and a
parsable URL part.  Returns (label length, whitespace, URL length, after). -/
def lkLabelLoop (t : List Char) : Nat → Option (Nat × Nat × Nat × Nat)
  | 0 => none
  | m + 1 =>
      (if (t.drop (m + 1)).head? = some ']' ∧ (t.drop (m + 2)).head? = some '(' then
        (lkAfterLabel (t.drop (m + 3))).map (fun p => (m + 1, p.1, p.2.1, p.2.2))
      else none).orElse (fun _ => lkLabelLoop t m)

/-- Match object of `web_link_pattern =
    \[(.+)\]\([^\n\S]*?(http[s]?:\/\/[\S]+?)[^\n\S]*?\)|(http[s]?:\/\/[\S]+)`:
group 1/2 for the labelled form, group 3 for the bare-URL fallback. -/
structure LkM where
  g1 : Option (Nat × Nat)
  g2 : Option (Nat × Nat)
  g3 : Option (Nat × Nat)

/-- First alternative of `web_link_pattern`: the labelled form
`\[(.+)\]\([^\n\S]*?(http[s]?:\/\/[\S]+?)[^\n\S]*?\)` (sets groups 1 and 2). -/
def matchLinkLabel (s : List Char) : Option (Nat × LkM) :=
  match s with
  | c :: cs =>
      if c = '[' then
        let ll := runLen (fun x => !(x = '\n')) cs
        (lkLabelLoop cs ll).map (fun q =>
          (1 + q.1 + 2 + q.2.1 + q.2.2.1 + q.2.2.2 - 1,
            LkM.mk (some (1, q.1)) (some (1 + q.1 + 2 + q.2.1, q.2.2.1)) none))
      else none
  | [] => none

/-- Second alternative of `web_link_pattern`: the bare URL
`(http[s]?:\/\/[\S]+)` (sets group 3). -/
def matchLinkBare (s : List Char) : Option (Nat × LkM) :=
  match parseScheme s with
  | some sc =>
      let g := runLen (fun c => !(isWs c)) (s.drop sc)
      if 1 ≤ g then some (sc + g - 1, LkM.mk none none (some (0, sc + g))) else none
  | none => none

/-- The alternation: the bare-URL alternative is tried only where the
labelled alternative fails. -/
def matchLink (_ : Option Char) (s : List Char) : Option (Nat × LkM) :=
  match matchLinkLabel s with
  | some p => some p
  | none => matchLinkBare s

/-- `linkify_repl` of the source: bare URL renders `<a href=url>url</a>`,
labelled form `<a href=url>label</a>`; a `None` group interpolates as the
text `None` in Python's f-string; both groups missing returns `None`. -/
def linkify_repl (m : LkM) : Option (List Piece) :=
  match m.g3 with
  | some g =>
      some (lits "<a href=\"" ++ [Piece.sl g.1 g.2] ++ lits "\">" ++ [Piece.sl g.1 g.2]
        ++ lits "</a>")
  | none =>
      match m.g2 with
      | some g =>
          some (lits "<a href=\"" ++ [Piece.sl g.1 g.2] ++ lits "\">" ++
            (match m.g1 with
             | some h => [Piece.sl h.1 h.2]
             | none => lits "None") ++ lits "</a>")
      | none => none

def tryLinkify (prev : Option Char) (s : List Char) :
    Option (Nat × Option (List Piece)) :=
  (matchLink prev s).map (fun p => (p.1, linkify_repl p.2))

/-- Match object of `nitro_emote_pattern` /  the raw emote inside
`womboji_pattern`: animated flag, name slice, id slice, total consumed. -/
structure EmM where
  animated : Bool
  ename : Nat × Nat
  eid : Nat × Nat
  consumed : Nat

/-- `(?P<animated>a)?:(?P<name>[0-9a-zA-Z_]{2,32}):(?P<id>[0-9]{15,21})` +
closing delimiter, applied after the opening delimiter (of length `dlen`). -/
def emCore2 (dlen : Nat) (closer : List Char) (t : List Char) (anim : Bool) (ns : Nat) :
    Option EmM :=
  let r := runLen isWordChar (t.drop ns)
  if 2 ≤ r ∧ r ≤ 32 ∧ (t.drop (ns + r)).head? = some ':' then
    let ds := ns + r + 1
    let d := runLen isDigitC (t.drop ds)
    if 15 ≤ d ∧ d ≤ 21 ∧ hasPfx closer (t.drop (ds + d)) then
      some ⟨anim, (dlen + ns, r), (dlen + ds, d), dlen + ds + d + closer.length⟩
    else none
  else none

def emCore (dlen : Nat) (closer : List Char) (t : List Char) : Option EmM :=
  match t with
  | 'a' :: ':' :: _ => emCore2 dlen closer t true 2
  | ':' :: _ => emCore2 dlen closer t false 1
  | _ => none

/-- `nitro_emote_pattern =
    &lt;(?P<animated>a)?:(?P<name>[0-9a-zA-Z_]{2,32}):(?P<id>[0-9]{15,21})&gt;`. -/
def matchNitro (s : List Char) : Option EmM :=
  if hasPfx "&lt;".data s then emCore 4 "&gt;".data (s.drop 4) else none

/-- The raw (unescaped) emote token `<a?:name:id>` inside `womboji_pattern`,
matched against the original input; only the consumed length matters. -/
def matchRawEmote (s : List Char) : Option Nat :=
  if hasPfx "<".data s then (emCore 1 ">".data (s.drop 1)).map (fun m => m.consumed)
  else none

/-- The CDN URL of `emojify_repl` / `wombojify_repl`: `.gif` when the
animated group matched, `.png` otherwise. -/
def emojiUrlPieces (m : EmM) : List Piece :=
  lits "https://cdn.discordapp.com/emojis/" ++ [Piece.sl m.eid.1 m.eid.2] ++
    (if m.animated then lits ".gif" else lits ".png")

/-- `emojify_repl`: inline-size image tag. -/
def emojify_repl (m : EmM) : List Piece :=
  lits "<img class=\"emoji\" alt=\"" ++ [Piece.sl m.ename.1 m.ename.2] ++
    lits "\" title=\"" ++ [Piece.sl m.ename.1 m.ename.2] ++ lits "\" src=\"" ++
    emojiUrlPieces m ++ lits "\">"

/-- `wombojify_repl`: large-size image tag. -/
def wombojify_repl (m : EmM) : List Piece :=
  lits "<img class=\"emoji emoji--large\" alt=\"" ++ [Piece.sl m.ename.1 m.ename.2] ++
    lits "\" title=\"" ++ [Piece.sl m.ename.1 m.ename.2] ++ lits "\" src=\"" ++
    emojiUrlPieces m ++ lits "\">"

def tryEmojify (_ : Option Char) (s : List Char) : Option (Nat × List Piece) :=
  (matchNitro s).map (fun m => (m.consumed - 1, emojify_repl m))

def tryWombojify (_ : Option Char) (s : List Char) : Option (Nat × List Piece) :=
  (matchNitro s).map (fun m => (m.consumed - 1, wombojify_repl m))

/-- The `womboji_pattern.findall` loop of `emojify`:
`([a-zA-Z0-9!-;=?-~\s]*)?\s*<a?:name:id>\s*([a-zA-Z0-9!-;=?-~\s]*)?` matched
repeatedly over the original input; the result is `False` as soon as a match
has a nonempty surrounding-text group (the source's `womboji` flag with its
early `break`). -/
def wombojiScan : Nat → List Char → Bool
  | 0, _ => true
  | _ + 1, [] => true
  | fuel + 1, c :: cs =>
      let s := c :: cs
      let r := runLen isWombClass s
      match matchRawEmote (s.drop r) with
      | some ec =>
          let rest1 := s.drop (r + ec)
          let w := runLen isWs rest1
          let g2 := runLen isWombClass (rest1.drop w)
          if 1 ≤ r ∨ 1 ≤ g2 then false
          else wombojiScan fuel (rest1.drop (w + g2))
      | none => wombojiScan fuel cs

def wombojiCheck (orig : List Char) : Bool := wombojiScan orig.length orig

/-! ## The two engines -/

namespace DiscordMarkdown

/-- `escape_symbols` of the source (add one backslash before every symbol). -/
def escape_symbols (s : List Char) : List Char := gsubRun id id tryEscapeSymbols s

/-- `remove_escaped_symbol` of the source (drop one backslash before every
escaped symbol). -/
def remove_escaped_symbol (s : List Char) : List Char := gsubRun id id tryRemoveEscaped s

/-- `emojify(_input, original_txt)`: size class chosen once for the whole
message from the original input. -/
def emojify {α : Type} (emit : Char → α) (ch : α → Char)
    (orig : List Char) (xs : List α) : List α :=
  if wombojiCheck orig then gsubRun emit ch tryWombojify xs
  else gsubRun emit ch tryEmojify xs

/-- `DiscordMarkdown.markdown` of `discordMarkdownParser.py`, generic in the
alphabet: jinja-escape, then codeblock, inline codeblock, suppressed-embed
unwrap, blockquote, spoiler, strikethrough, bold, underline, italics, links,
emoji (mode from the original input), and finally unescape. -/
def markdownA {α : Type} (emit : Char → α) (ch : α → Char) (s : List α) : Option (List α) :=
  let o1 := gsubRun emit ch tryEscapeHtml s
  let o2 := gsubRun emit ch tryCodeblock o1
  let o3 := gsubRun emit ch tryInline o2
  let o4 := gsubRun emit ch tryArrows o3
  (gsubRunO emit ch (tryBlockquote "&gt;&gt;&gt; ".data "&gt; ".data) o4).bind fun o5 =>
  let o6 := gsubRun emit ch trySpoiler o5
  let o7 := gsubRun emit ch tryStrike o6
  let o8 := gsubRun emit ch tryBold o7
  let o9 := gsubRun emit ch tryUnderline o8
  (gsubRunO emit ch tryItalics o9).bind fun o10 =>
  (gsubRunO emit ch tryLinkify o10).bind fun o11 =>
  let o12 := emojify emit ch (s.map ch) o11
  some (gsubRun emit ch tryRemoveEscaped o12)

/-- The engine on plain text. -/
def markdown (s : List Char) : Option (List Char) := markdownA id id s

/-- Provenance-tagged characters: the flag is `true` exactly on characters
emitted by the engine itself (templates, entities, protection backslashes). -/
def toToks (s : List Char) : List (Char × Bool) := s.map (fun c => (c, false))

/-- The engine on provenance-tagged text. -/
def markdownTok (s : List Char) : Option (List (Char × Bool)) :=
  markdownA (fun c => (c, true)) Prod.fst (toToks s)

end DiscordMarkdown

namespace BulkDiscordMarkdown

/-- `DiscordMarkdown.markdown` of `bulkMessageDelete.py`: no HTML escape, raw
`>`-marker blockquotes, two sequential italics passes, no link or emoji pass. -/
def markdown (s : List Char) : Option (List Char) :=
  let o1 := gsubRun id id tryCodeblock s
  let o2 := gsubRun id id tryInline o1
  (gsubRunO id id (tryBlockquote ">>> ".data "> ".data) o2).bind fun o3 =>
  let o4 := gsubRun id id trySpoiler o3
  let o5 := gsubRun id id tryStrike o4
  let o6 := gsubRun id id tryBold o5
  let o7 := gsubRun id id tryUnderline o6
  let o8 := gsubRun id id (trySingleEm '*') o7
  let o9 := gsubRun id id (trySingleEm '_') o8
  some (gsubRun id id tryRemoveEscaped o9)

end BulkDiscordMarkdown

/-! ## The protect/unprotect round trip -/

/-- Block form of `escape_symbols`: each symbol becomes backslash + symbol,
every other character is kept. -/
def escSpec : List Char → List Char
  | [] => []
  | c :: cs => (if isSymb c then ['\\', c] else [c]) ++ escSpec cs

theorem escape_symbols_go (s : List Char) :
    ∀ fuel prev, s.length ≤ fuel →
      gsubGo id id tryEscapeSymbols fuel prev s = escSpec s := by
  induction s with
  | nil => intro fuel prev _; cases fuel <;> simp [gsubGo, escSpec]
  | cons c cs ih =>
      intro fuel prev h
      cases fuel with
      | zero => simp at h
      | succ n =>
          have hlen : cs.length ≤ n := by simp [List.length_cons] at h; omega
          by_cases hc : isSymb c
          · have htry : tryEscapeSymbols prev (id c :: cs.map id)
                = some (0, [Piece.lit '\\', Piece.sl 0 1]) := by
              simp [tryEscapeSymbols, hc]
            rw [gsubGo_eq_some id id tryEscapeSymbols n prev c cs 0
              [Piece.lit '\\', Piece.sl 0 1] htry]
            simp [applyPieces, escSpec, hc, ih n _ hlen]
          · have htry : tryEscapeSymbols prev (id c :: cs.map id) = none := by
              simp [tryEscapeSymbols, hc]
            rw [gsubGo_eq_none id id tryEscapeSymbols n prev c cs htry]
            simp [escSpec, hc, ih n _ hlen]

theorem escape_symbols_eq (s : List Char) :
    DiscordMarkdown.escape_symbols s = escSpec s := by
  unfold DiscordMarkdown.escape_symbols gsubRun
  exact escape_symbols_go s s.length none (Nat.le_refl _)

theorem isSymb_backslash : isSymb '\\' = true := by decide

theorem remove_escaped_go (s : List Char) :
    ∀ fuel prev, (escSpec s).length ≤ fuel →
      gsubGo id id tryRemoveEscaped fuel prev (escSpec s) = s := by
  induction s with
  | nil => intro fuel prev _; cases fuel <;> simp [gsubGo, escSpec]
  | cons c cs ih =>
      intro fuel prev h
      by_cases hc : isSymb c
      · have hblock : escSpec (c :: cs) = '\\' :: c :: escSpec cs := by simp [escSpec, hc]
        rw [hblock] at h ⊢
        cases fuel with
        | zero => simp at h
        | succ n =>
            have hlen : (escSpec cs).length ≤ n := by
              simp [List.length_cons] at h; omega
            have htry : tryRemoveEscaped prev (id '\\' :: (c :: escSpec cs).map id)
                = some (1, [Piece.sl 1 1]) := by
              simp [tryRemoveEscaped, hc]
            rw [gsubGo_eq_some id id tryRemoveEscaped n prev '\\' (c :: escSpec cs) 1
              [Piece.sl 1 1] htry]
            simp [applyPieces, ih n _ hlen]
      · have hblock : escSpec (c :: cs) = c :: escSpec cs := by simp [escSpec, hc]
        rw [hblock] at h ⊢
        cases fuel with
        | zero => simp at h
        | succ n =>
            have hlen : (escSpec cs).length ≤ n := by
              simp [List.length_cons] at h; omega
            have hns : ¬ c = '\\' := by
              intro hh; rw [hh] at hc; exact hc isSymb_backslash
            have htry : tryRemoveEscaped prev (id c :: (escSpec cs).map id) = none := by
              cases hcs : escSpec cs with
              | nil => simp [tryRemoveEscaped]
              | cons c1 cs' => simp [tryRemoveEscaped, hns]
            rw [gsubGo_eq_none id id tryRemoveEscaped n prev c (escSpec cs) htry]
            simp [ih n _ hlen]

/-- The round trip `remove_escaped_symbol (escape_symbols s) = s` (it holds
for every string, including those with pre-existing escapes). -/
theorem remove_escape_symbols_round (s : List Char) :
    DiscordMarkdown.remove_escaped_symbol (DiscordMarkdown.escape_symbols s) = s := by
  rw [escape_symbols_eq]
  unfold DiscordMarkdown.remove_escaped_symbol gsubRun
  exact remove_escaped_go s (escSpec s).length none (Nat.le_refl _)

/-- A pre-existing backslash-symbol sequence: some backslash immediately
followed by a non-alphanumeric, non-whitespace character. -/
def hasBackslashSymbolPair : List Char → Bool
  | c :: c1 :: cs => (c = '\\' && isSymb c1) || hasBackslashSymbolPair (c1 :: cs)
  | _ => false

/-! ## Totality: the `None` fallback branches of the replacement callbacks
are unreachable -/

theorem tryItalics_total :
    ∀ prev s k r, tryItalics prev s = some (k, r) → r.isSome := by
  intro prev s k r h
  unfold tryItalics matchItalics at h
  cases h1 : matchSingle '*' prev s with
  | some p =>
      rw [h1] at h
      simp only [Option.map_some] at h
      obtain ⟨-, hr⟩ := Prod.mk.injEq .. ▸ (Option.some_inj.mp h)
      rw [← hr]
      simp [italics_repl]
  | none =>
      rw [h1] at h
      cases h2 : matchSingle '_' prev s with
      | some p =>
          rw [h2] at h
          simp only [Option.map_some] at h
          obtain ⟨-, hr⟩ := Prod.mk.injEq .. ▸ (Option.some_inj.mp h)
          rw [← hr]
          simp [italics_repl]
      | none => rw [h2] at h; simp at h

theorem tryBlockquote_total (m3 m1 : List Char) :
    ∀ prev s k r, tryBlockquote m3 m1 prev s = some (k, r) → r.isSome := by
  intro prev s k r h
  unfold tryBlockquote matchBlockquote at h
  by_cases hls : atLineStart prev
  · rw [if_pos hls] at h
    by_cases h3 : hasPfx m3 (s.drop (runLen (fun c => c = ' ') s))
    · rw [if_pos h3] at h
      simp only [Option.map_some] at h
      obtain ⟨-, hr⟩ := Prod.mk.injEq .. ▸ (Option.some_inj.mp h)
      rw [← hr]
      simp [blockquote_repl]
    · rw [if_neg h3] at h
      by_cases h1 : hasPfx m1 (s.drop (runLen (fun c => c = ' ') s))
      · rw [if_pos h1] at h
        simp only [Option.map_some] at h
        obtain ⟨-, hr⟩ := Prod.mk.injEq .. ▸ (Option.some_inj.mp h)
        rw [← hr]
        simp [blockquote_repl]
      · rw [if_neg h1] at h; simp at h
  · rw [if_neg hls] at h; simp at h

theorem matchLinkLabel_groups (s : List Char) (kk : Nat) (m : LkM)
    (hm : matchLinkLabel s = some (kk, m)) : m.g2.isSome ∧ m.g1.isSome := by
  cases s with
  | nil => simp [matchLinkLabel] at hm
  | cons c cs =>
      simp only [matchLinkLabel] at hm
      by_cases hbr : c = '['
      · rw [if_pos hbr] at hm
        cases hll : lkLabelLoop cs (runLen (fun x => !(x = '\n')) cs) with
        | none => rw [hll] at hm; simp at hm
        | some q =>
            rw [hll] at hm
            simp at hm
            obtain ⟨-, hr⟩ := hm
            rw [← hr]
            simp
      · rw [if_neg hbr] at hm
        simp at hm

theorem matchLinkBare_groups (s : List Char) (kk : Nat) (m : LkM)
    (hm : matchLinkBare s = some (kk, m)) : m.g3.isSome := by
  unfold matchLinkBare at hm
  cases hps : parseScheme s with
  | none => rw [hps] at hm; simp at hm
  | some sc =>
      rw [hps] at hm
      simp only at hm
      by_cases hg : 1 ≤ runLen (fun c => !(isWs c)) (s.drop sc)
      · rw [if_pos hg] at hm
        simp at hm
        obtain ⟨-, hr⟩ := hm
        rw [← hr]
        simp
      · rw [if_neg hg] at hm; simp at hm

theorem tryLinkify_total :
    ∀ prev s k r, tryLinkify prev s = some (k, r) → r.isSome := by
  intro prev s k r h
  unfold tryLinkify at h
  cases hm : matchLink prev s with
  | none => rw [hm] at h; simp at h
  | some p =>
      rw [hm] at h
      simp at h
      obtain ⟨-, hr⟩ := h
      obtain ⟨kk, mm⟩ := p
      rw [← hr]
      unfold matchLink at hm
      cases hl : matchLinkLabel s with
      | some q =>
          rw [hl] at hm
          simp only [Option.some_inj] at hm
          subst hm
          obtain ⟨hg2, -⟩ := matchLinkLabel_groups s kk mm hl
          unfold linkify_repl
          cases h3 : mm.g3 with
          | some g => simp
          | none =>
              cases h2 : mm.g2 with
              | some g => simp
              | none => rw [h2] at hg2; simp at hg2
      | none =>
          rw [hl] at hm
          simp only at hm
          have hg3 := matchLinkBare_groups s kk mm hm
          unfold linkify_repl
          cases h3 : mm.g3 with
          | some g => simp
          | none => rw [h3] at hg3; simp at hg3

theorem bindIsSome {A B : Type} {x : Option A} {f : A → Option B}
    (hx : x.isSome) (hf : ∀ a, (f a).isSome) : (x.bind f).isSome := by
  cases x with
  | none => simp at hx
  | some a => simpa using hf a

/-- The whole pipeline never aborts: every `Option`-valued pass succeeds. -/
theorem DiscordMarkdown.markdownA_total {α : Type} (emit : Char → α) (ch : α → Char)
    (s : List α) : (DiscordMarkdown.markdownA emit ch s).isSome := by
  unfold DiscordMarkdown.markdownA
  exact bindIsSome
    (gsubRunO_total emit ch (tryBlockquote "&gt;&gt;&gt; ".data "&gt; ".data)
      (tryBlockquote_total "&gt;&gt;&gt; ".data "&gt; ".data) _)
    (fun o5 => bindIsSome (gsubRunO_total emit ch tryItalics tryItalics_total _)
      (fun o10 => bindIsSome (gsubRunO_total emit ch tryLinkify tryLinkify_total _)
        (fun o11 => rfl)))

/-! ## Erasing provenance commutes with the pipeline -/

theorem emojify_map {α : Type} (emit : Char → α) (ch : α → Char)
    (hlc : ∀ c, ch (emit c) = c) (orig : List Char) (xs : List α) :
    (DiscordMarkdown.emojify emit ch orig xs).map ch
      = DiscordMarkdown.emojify id id orig (xs.map ch) := by
  unfold DiscordMarkdown.emojify
  by_cases hw : wombojiCheck orig
  · rw [if_pos hw, if_pos hw, gsubRun_map emit ch hlc]
  · rw [if_neg hw, if_neg hw, gsubRun_map emit ch hlc]

theorem DiscordMarkdown.markdownA_map {α : Type} (emit : Char → α) (ch : α → Char)
    (hlc : ∀ c, ch (emit c) = c) (s : List α) :
    (DiscordMarkdown.markdownA emit ch s).map (List.map ch)
      = DiscordMarkdown.markdownA id id (s.map ch) := by
  simp only [DiscordMarkdown.markdownA]
  obtain ⟨o5, h5⟩ := Option.isSome_iff_exists.mp
    (gsubRunO_total emit ch (tryBlockquote "&gt;&gt;&gt; ".data "&gt; ".data)
      (tryBlockquote_total "&gt;&gt;&gt; ".data "&gt; ".data)
      (gsubRun emit ch tryArrows (gsubRun emit ch tryInline
        (gsubRun emit ch tryCodeblock (gsubRun emit ch tryEscapeHtml s)))))
  have h5c : gsubRunO id id (tryBlockquote "&gt;&gt;&gt; ".data "&gt; ".data)
      (gsubRun id id tryArrows (gsubRun id id tryInline
        (gsubRun id id tryCodeblock (gsubRun id id tryEscapeHtml (s.map ch)))))
      = some (o5.map ch) := by
    rw [← gsubRun_map emit ch hlc, ← gsubRun_map emit ch hlc, ← gsubRun_map emit ch hlc,
      ← gsubRun_map emit ch hlc, ← gsubRunO_map emit ch hlc, h5]
    rfl
  rw [h5, h5c]
  simp only [Option.some_bind]
  obtain ⟨o10, h10⟩ := Option.isSome_iff_exists.mp
    (gsubRunO_total emit ch tryItalics tryItalics_total
      (gsubRun emit ch tryUnderline (gsubRun emit ch tryBold
        (gsubRun emit ch tryStrike (gsubRun emit ch trySpoiler o5)))))
  have h10c : gsubRunO id id tryItalics
      (gsubRun id id tryUnderline (gsubRun id id tryBold
        (gsubRun id id tryStrike (gsubRun id id trySpoiler (o5.map ch)))))
      = some (o10.map ch) := by
    rw [← gsubRun_map emit ch hlc, ← gsubRun_map emit ch hlc, ← gsubRun_map emit ch hlc,
      ← gsubRun_map emit ch hlc, ← gsubRunO_map emit ch hlc, h10]
    rfl
  rw [h10, h10c]
  simp only [Option.some_bind]
  obtain ⟨o11, h11⟩ := Option.isSome_iff_exists.mp
    (gsubRunO_total emit ch tryLinkify tryLinkify_total o10)
  have h11c : gsubRunO id id tryLinkify (o10.map ch) = some (o11.map ch) := by
    rw [← gsubRunO_map emit ch hlc, h11]
    rfl
  rw [h11, h11c]
  simp only [Option.some_bind, List.map_id]
  have hfin : (gsubRun emit ch tryRemoveEscaped
        (DiscordMarkdown.emojify emit ch (List.map ch s) o11)).map ch
      = gsubRun id id tryRemoveEscaped
        (DiscordMarkdown.emojify id id (List.map ch s) (o11.map ch)) := by
    rw [gsubRun_map emit ch hlc, emojify_map emit ch hlc]
  rw [← hfin]
  rfl

/-! ## The HTML-safety flag invariant -/

/-- A provenance-tagged character is safe when, if it is one of the three
HTML-significant characters, it was emitted by the engine itself. -/
def tokOk (t : Char × Bool) : Prop := (t.1 = '<' ∨ t.1 = '>' ∨ t.1 = '&') → t.2 = true

theorem escTbl_none_cases (c : Char) (h : escTbl c = none) :
    ¬ (c = '<' ∨ c = '>' ∨ c = '&') := by
  intro hc
  rcases hc with rfl | rfl | rfl <;> simp [escTbl] at h

/-- After the jinja escape pass every HTML-significant character in the
buffer is engine-emitted (entity text), whatever the input flags were. -/
theorem escapeHtml_flags :
    ∀ (xs : List (Char × Bool)) fuel prev, xs.length ≤ fuel →
      ∀ t ∈ gsubGo (fun c => (c, true)) Prod.fst tryEscapeHtml fuel prev xs, tokOk t := by
  intro xs
  induction xs with
  | nil => intro fuel prev _ t ht; cases fuel <;> simp [gsubGo] at ht
  | cons a rest ih =>
      intro fuel prev h t ht
      cases fuel with
      | zero => simp at h
      | succ n =>
          have hlen : rest.length ≤ n := by simp [List.length_cons] at h; omega
          cases he : escTbl a.1 with
          | none =>
              have htry : tryEscapeHtml prev (a.1 :: rest.map Prod.fst) = none := by
                simp [tryEscapeHtml, he]
              rw [gsubGo_eq_none (fun c => (c, true)) Prod.fst tryEscapeHtml
                n prev a rest htry] at ht
              rcases List.mem_cons.mp ht with rfl | ht'
              · intro hc; exact absurd hc (escTbl_none_cases _ he)
              · exact ih n (some a.1) hlen t ht'
          | some e =>
              have htry : tryEscapeHtml prev (a.1 :: rest.map Prod.fst)
                  = some (0, lits e) := by simp [tryEscapeHtml, he, lits]
              rw [gsubGo_eq_some (fun c => (c, true)) Prod.fst tryEscapeHtml
                n prev a rest 0 (lits e) htry] at ht
              rcases List.mem_append.mp ht with hl | hr
              · rw [lits, applyPieces_all_lit] at hl
                obtain ⟨c, -, rfl⟩ := List.mem_map.mp hl
                intro _; rfl
              · simp only [List.drop_zero] at hr
                exact ih n _ hlen t hr

/-- Every pass preserves the flag invariant: new characters come from
templates (flag `true`), old characters are carried unchanged. -/
theorem pass_flags (tr : Option Char → List Char → Option (Nat × List Piece))
    (xs : List (Char × Bool)) (hxs : ∀ t ∈ xs, tokOk t) :
    ∀ t ∈ gsubRun (fun c => (c, true)) Prod.fst tr xs, tokOk t := by
  intro t ht
  rcases gsubRun_mem (fun c => (c, true)) Prod.fst tr xs t ht with ⟨c, rfl⟩ | h'
  · intro _; rfl
  · exact hxs t h'

theorem passO_flags (tr : Option Char → List Char → Option (Nat × Option (List Piece)))
    (xs ys : List (Char × Bool))
    (hys : gsubRunO (fun c => (c, true)) Prod.fst tr xs = some ys)
    (hxs : ∀ t ∈ xs, tokOk t) : ∀ t ∈ ys, tokOk t := by
  intro t ht
  rcases gsubRunO_mem (fun c => (c, true)) Prod.fst tr xs ys hys t ht with ⟨c, rfl⟩ | h'
  · intro _; rfl
  · exact hxs t h'

theorem emojify_flags (orig : List Char) (xs : List (Char × Bool))
    (hxs : ∀ t ∈ xs, tokOk t) :
    ∀ t ∈ DiscordMarkdown.emojify (fun c => (c, true)) Prod.fst orig xs, tokOk t := by
  unfold DiscordMarkdown.emojify
  by_cases hw : wombojiCheck orig
  · rw [if_pos hw]; exact pass_flags _ xs hxs
  · rw [if_neg hw]; exact pass_flags _ xs hxs

/-- Every HTML-significant character of the rendered token buffer carries the
engine-emitted flag. -/
theorem markdownTok_flags (s : List Char) (ts : List (Char × Bool))
    (hts : DiscordMarkdown.markdownTok s = some ts) : ∀ t ∈ ts, tokOk t := by
  unfold DiscordMarkdown.markdownTok at hts
  simp only [DiscordMarkdown.markdownA] at hts
  obtain ⟨o5, h5⟩ := Option.isSome_iff_exists.mp
    (gsubRunO_total (fun c => (c, true)) Prod.fst
      (tryBlockquote "&gt;&gt;&gt; ".data "&gt; ".data)
      (tryBlockquote_total "&gt;&gt;&gt; ".data "&gt; ".data)
      (gsubRun (fun c => (c, true)) Prod.fst tryArrows
        (gsubRun (fun c => (c, true)) Prod.fst tryInline
          (gsubRun (fun c => (c, true)) Prod.fst tryCodeblock
            (gsubRun (fun c => (c, true)) Prod.fst tryEscapeHtml
              (DiscordMarkdown.toToks s))))))
  rw [h5] at hts
  simp only [Option.some_bind] at hts
  obtain ⟨o10, h10⟩ := Option.isSome_iff_exists.mp
    (gsubRunO_total (fun c => (c, true)) Prod.fst tryItalics tryItalics_total
      (gsubRun (fun c => (c, true)) Prod.fst tryUnderline
        (gsubRun (fun c => (c, true)) Prod.fst tryBold
          (gsubRun (fun c => (c, true)) Prod.fst tryStrike
            (gsubRun (fun c => (c, true)) Prod.fst trySpoiler o5)))))
  rw [h10] at hts
  simp only [Option.some_bind] at hts
  obtain ⟨o11, h11⟩ := Option.isSome_iff_exists.mp
    (gsubRunO_total (fun c => (c, true)) Prod.fst tryLinkify tryLinkify_total o10)
  rw [h11] at hts
  simp only [Option.some_bind, Option.some_inj] at hts
  have f1 : ∀ t ∈ gsubRun (fun c => (c, true)) Prod.fst tryEscapeHtml
      (DiscordMarkdown.toToks s), tokOk t :=
    escapeHtml_flags (DiscordMarkdown.toToks s) (DiscordMarkdown.toToks s).length none
      (Nat.le_refl _)
  have f4 := pass_flags tryArrows _ (pass_flags tryInline _ (pass_flags tryCodeblock _ f1))
  have f5 := passO_flags (tryBlockquote "&gt;&gt;&gt; ".data "&gt; ".data) _ o5 h5 f4
  have f9 := pass_flags tryUnderline _ (pass_flags tryBold _
    (pass_flags tryStrike _ (pass_flags trySpoiler _ f5)))
  have f10 := passO_flags tryItalics _ o10 h10 f9
  have f11 := passO_flags tryLinkify _ o11 h11 f10
  have f12 := emojify_flags ((DiscordMarkdown.toToks s).map Prod.fst) o11 f11
  have f13 := pass_flags tryRemoveEscaped _ f12
  rw [← hts]
  exact f13

/-! ## The claims -/

theorem toToks_fst (s : List Char) : (DiscordMarkdown.toToks s).map Prod.fst = s := by
  induction s with
  | nil => rfl
  | cons c cs ih => simp [DiscordMarkdown.toToks] at ih ⊢; exact ih

/-- C1: HTML-safety of the pipeline.  Running the engine on provenance-tagged
input (every input character flagged `false`) succeeds, erases to exactly the
output of the real engine, and every `<`, `>` or `&` character of the output
carries the engine-emitted flag: such characters only ever originate from a
replacement template (tags and entity text), never from input text.  The
invariant is established by the escape pass and preserved by every construct
pass and the final unprotect step. -/
theorem C1_html_safety (s : List Char) :
    ∃ ts : List (Char × Bool), DiscordMarkdown.markdownTok s = some ts ∧
      DiscordMarkdown.markdown s = some (ts.map Prod.fst) ∧
      ∀ t ∈ ts, (t.1 = '<' ∨ t.1 = '>' ∨ t.1 = '&') → t.2 = true := by
  obtain ⟨ts, hts⟩ := Option.isSome_iff_exists.mp
    (DiscordMarkdown.markdownA_total (fun c => (c, true)) Prod.fst
      (DiscordMarkdown.toToks s))
  have hts' : DiscordMarkdown.markdownTok s = some ts := hts
  refine ⟨ts, hts', ?_, markdownTok_flags s ts hts'⟩
  have hmap := DiscordMarkdown.markdownA_map (fun c => (c, true)) Prod.fst
    (fun _ => rfl) (DiscordMarkdown.toToks s)
  rw [toToks_fst] at hmap
  calc DiscordMarkdown.markdown s
      = (DiscordMarkdown.markdownTok s).map (List.map Prod.fst) := hmap.symm
    _ = some (ts.map Prod.fst) := by rw [hts']; rfl

/-- C2: totality of render.  `DiscordMarkdown.markdown` returns a string for
every input (empty, unbalanced, whitespace-only included): the
"no content group matched" fallback branches of the italics, block-quote and
link replacement callbacks — modelled as `none`, which would abort the
pipeline — are unreachable, so the result is always `some`. -/
theorem C2_markdown_total (s : List Char) :
    ∃ out, DiscordMarkdown.markdown s = some out :=
  Option.isSome_iff_exists.mp (DiscordMarkdown.markdownA_total id id s)

/-- C3: protect/unprotect round trip.  For every string with no pre-existing
backslash-symbol sequence, `remove_escaped_symbol (escape_symbols s) = s`. -/
theorem C3_roundtrip (s : List Char) (_h : hasBackslashSymbolPair s = false) :
    DiscordMarkdown.remove_escaped_symbol (DiscordMarkdown.escape_symbols s) = s :=
  remove_escape_symbols_round s

/-- C3 witness: the round trip on a concrete escape-pair-free string. -/
theorem C3_roundtrip_witness :
    hasBackslashSymbolPair "ab \\c *!".data = false ∧
      DiscordMarkdown.remove_escaped_symbol
        (DiscordMarkdown.escape_symbols "ab \\c *!".data) = "ab \\c *!".data :=
  ⟨by decide, C3_roundtrip "ab \\c *!".data (by decide)⟩

/-- C4: code-block content is protected from all later passes.  The fenced
input renders its body literally (the body is symbol-protected before the
formatting passes run and unprotected last), with no `<strong>` element. -/
theorem C4_codeblock_protects :
    DiscordMarkdown.markdown "```**not bold**```".data
        = some "<div class=\"pre pre--multiline nohighlight\">**not bold**</div>".data ∧
      "**not bold**".data.IsInfix
        "<div class=\"pre pre--multiline nohighlight\">**not bold**</div>".data ∧
      ¬ "<strong>".data.IsInfix
        "<div class=\"pre pre--multiline nohighlight\">**not bold**</div>".data :=
  ⟨by decide, by decide, by decide⟩

/-- C5 counterexample: a message consisting of one custom emoji token plus a
punctuation character only — by the claim's rule ("no non-whitespace,
non-punctuation text on either side", punctuation permitted) it should render
with the large-size class, but the engine's womboji scan captures the `!` in
a surrounding-text group and renders every token with the inline class. -/
theorem C5_counterexample :
    DiscordMarkdown.markdown "<:em:123456789012345>!".data
        = some "<img class=\"emoji\" alt=\"em\" title=\"em\" src=\"https://cdn.discordapp.com/emojis/123456789012345.png\">!".data ∧
      ¬ "emoji--large".data.IsInfix
        "<img class=\"emoji\" alt=\"em\" title=\"em\" src=\"https://cdn.discordapp.com/emojis/123456789012345.png\">!".data :=
  ⟨by decide, by decide⟩

/-- C5 amended: the whole-message size decision permits only whitespace, not
punctuation, around the tokens.  A message that is exactly one custom emoji
token (trailing whitespace allowed) renders with class `emoji emoji--large`;
the same token surrounded by words renders with class `emoji`. -/
theorem C5_amended :
    DiscordMarkdown.markdown "<:em:123456789012345>".data
        = some "<img class=\"emoji emoji--large\" alt=\"em\" title=\"em\" src=\"https://cdn.discordapp.com/emojis/123456789012345.png\">".data ∧
      DiscordMarkdown.markdown "<:em:123456789012345> ".data
        = some "<img class=\"emoji emoji--large\" alt=\"em\" title=\"em\" src=\"https://cdn.discordapp.com/emojis/123456789012345.png\"> ".data ∧
      DiscordMarkdown.markdown "hello <:em:123456789012345> world".data
        = some "hello <img class=\"emoji\" alt=\"em\" title=\"em\" src=\"https://cdn.discordapp.com/emojis/123456789012345.png\"> world".data :=
  ⟨by decide, by decide, by decide⟩

/-- C6 counterexample: the two engine copies differ already on the one-character
input `&` — the utils engine HTML-escapes the buffer first, the bulk engine
does not. -/
theorem C6_counterexample :
    DiscordMarkdown.markdown "&".data ≠ BulkDiscordMarkdown.markdown "&".data := by
  decide

/-- C6 amended: the two engine copies are not behaviourally the same — there
is an input on which they return different outputs. -/
theorem C6_engines_differ :
    ∃ s : List Char, DiscordMarkdown.markdown s ≠ BulkDiscordMarkdown.markdown s :=
  ⟨"&".data, by decide⟩

/-- C7: bold/italics nesting.  The italics pass, running after bold, wraps the
inner single-starred span without re-matching the consumed `**` pair. -/
theorem C7_bold_italics_nesting :
    DiscordMarkdown.markdown "**bold *and italic* text**".data
      = some "<strong>bold <em>and italic</em> text</strong>".data := by
  decide

/-- C8: link precedence.  The bracketed-label form renders an anchor with the
label as visible text; a bare URL renders an anchor whose text and href are
the URL; and the bare-URL alternative of `web_link_pattern` is only the
fallback: wherever the labelled alternative matches, its match is taken. -/
theorem C8_link_precedence :
    DiscordMarkdown.markdown "[click here](https://example.com)".data
        = some "<a href=\"https://example.com\">click here</a>".data ∧
      DiscordMarkdown.markdown "https://example.com".data
        = some "<a href=\"https://example.com\">https://example.com</a>".data ∧
      ∀ (prev : Option Char) (s : List Char) (p : Nat × LkM),
        matchLinkLabel s = some p → matchLink prev s = some p := by
  refine ⟨by decide, by decide, ?_⟩
  intro prev s p hp
  unfold matchLink
  rw [hp]

/-- C9: escaped delimiters stay literal.  Backslash-escaped asterisks suppress
the bold match throughout the pipeline; the escape markers are removed only by
the final unprotect pass, leaving the literal text. -/
theorem C9_escaped_literal :
    DiscordMarkdown.markdown "\\*\\*not bold\\*\\*".data = some "**not bold**".data ∧
      ¬ "<strong>".data.IsInfix "**not bold**".data :=
  ⟨by decide, by decide⟩

/-- C10: empty inline code is not a code span.  The inline-code matcher never
matches at two adjacent backticks (its content requires at least one
non-backtick character), and the two-backtick input passes through the whole
pipeline as literal text. -/
theorem C10_empty_inline_code :
    (∀ (prev : Option Char) (rest : List Char),
        tryInline prev (tickC :: tickC :: rest) = none) ∧
      DiscordMarkdown.markdown "``".data = some "``".data := by
  constructor
  · intro prev rest
    by_cases hp : prev = some '\\'
    · simp [tryInline, hp]
    · simp [tryInline, hp, runLen]
  · decide
